import Mathlib

/-!
Verification development for the RocksDict storage-engine contract.

The repository's own Python code is a thin re-export module; the storage
engine it re-exports is specified but not shipped in the sources examined
here.  The engine definitions below are therefore modelled from the spec
(each such definition says so in its doc comment); the Python-module
definitions at the end are translated from `python/rocksdict/__init__.py`.
-/

namespace RocksDict

/-- Keys are byte sequences. -/
abbrev Key := List Nat

/-- Values are byte sequences. -/
abbrev Value := List Nat

/-- Modelled from the spec: the operation field of a `Record` — a Put
carrying a value or a Delete tombstone.  (Merge operands are consumed only
through a user-supplied combine function and no property below concerns
them, so they are not modelled.) -/
inductive ROp where
  | put (v : Value)
  | del
deriving DecidableEq, Repr

/-- Modelled from the spec: a `Record` is `(key, sequence_number, operation)`. -/
structure Record where
  key : Key
  seq : Nat
  op : ROp
deriving DecidableEq, Repr

/-- Strict lexicographic order on keys (the default comparator). -/
def keyLt : List Nat → List Nat → Bool
  | [], [] => false
  | [], _ :: _ => true
  | _ :: _, [] => false
  | a :: as, b :: bs => if a < b then true else if b < a then false else keyLt as bs

theorem keyLt_irrefl (k : Key) : keyLt k k = false := by
  induction k with
  | nil => rfl
  | cons a as ih => simp [keyLt, ih]

/-! ## Variable-length integer encoding (used by the SSTable file format) -/

/-- Base-128 varint encoding, little-endian groups; the fuel argument is a
structural bound (any fuel at least the value itself suffices). -/
def varintEncodeAux : Nat → Nat → List Nat
  | 0, n => [n % 128]
  | fuel + 1, n => if n < 128 then [n] else (n % 128 + 128) :: varintEncodeAux fuel (n / 128)

/-- Base-128 varint encoding of a natural number. -/
def varintEncode (n : Nat) : List Nat := varintEncodeAux n n

/-- Varint decoding; returns the value and the unconsumed remainder. -/
def varintDecode : List Nat → Option (Nat × List Nat)
  | [] => none
  | b :: rest =>
      if b < 128 then some (b, rest)
      else match varintDecode rest with
        | none => none
        | some (n, r) => some (b - 128 + 128 * n, r)

theorem varintDecodeAux_round (fuel n : Nat) (rest : List Nat) (h : n ≤ fuel) :
    varintDecode (varintEncodeAux fuel n ++ rest) = some (n, rest) := by
  induction fuel generalizing n with
  | zero =>
    have hn : n = 0 := Nat.le_zero.mp h
    subst hn
    simp [varintEncodeAux, varintDecode]
  | succ fuel ih =>
    by_cases hlt : n < 128
    · simp [varintEncodeAux, hlt, varintDecode]
    · have h1 : ¬ (n % 128 + 128 < 128) := by omega
      have h2 : n / 128 ≤ fuel := by
        have : n / 128 < n := Nat.div_lt_self (by omega) (by omega)
        omega
      simp only [varintEncodeAux, hlt, if_false, List.cons_append, varintDecode, h1,
        ih (n / 128) h2]
      have h3 : n % 128 + 128 - 128 + 128 * (n / 128) = n := by omega
      rw [h3]

theorem varint_round (n : Nat) (rest : List Nat) :
    varintDecode (varintEncode n ++ rest) = some (n, rest) :=
  varintDecodeAux_round n n rest (Nat.le_refl n)

/-! ## SSTable builder and reader

Modelled from the spec: the builder consumes a sorted, caller-deduplicated
sequence of `Record`s and emits an immutable file — the encoded records
followed by a footer with metadata (min/max key and sequence range); the
reader decodes the records back. -/

/-- Wire format of one record: key length, key bytes, sequence number,
operation tag (0 = Put followed by the value, 1 = Delete). -/
def encodeRecord (r : Record) : List Nat :=
  varintEncode r.key.length ++ r.key ++ varintEncode r.seq ++
    (match r.op with
     | .put v => 0 :: (varintEncode v.length ++ v)
     | .del => [1])

/-- Decode one record, returning it and the unconsumed remainder. -/
def decodeRecord (bs : List Nat) : Option (Record × List Nat) :=
  match varintDecode bs with
  | none => none
  | some (klen, r1) =>
    if r1.length < klen then none else
    match varintDecode (r1.drop klen) with
    | none => none
    | some (sq, r2) =>
      match r2 with
      | 0 :: r3 =>
        (match varintDecode r3 with
         | none => none
         | some (vlen, r4) =>
           if r4.length < vlen then none
           else some (⟨r1.take klen, sq, .put (r4.take vlen)⟩, r4.drop vlen))
      | 1 :: r3 => some (⟨r1.take klen, sq, .del⟩, r3)
      | _ => none

/-- Decode a fixed count of consecutive records. -/
def decodeRecords : Nat → List Nat → Option (List Record × List Nat)
  | 0, bs => some ([], bs)
  | n + 1, bs =>
    match decodeRecord bs with
    | none => none
    | some (r, rest) =>
      match decodeRecords n rest with
      | none => none
      | some (rs, rest') => some (r :: rs, rest')

/-- Key encoded with its length, as used in the footer. -/
def encodeKey (k : Key) : List Nat := varintEncode k.length ++ k

/-- Modelled from the spec: the footer metadata — min/max key and the
sequence range of the table's records. -/
def tableFooter (rs : List Record) : List Nat :=
  match rs with
  | [] => []
  | r :: tl =>
    encodeKey (tl.foldl (fun m x => if keyLt x.key m then x.key else m) r.key) ++
    encodeKey (tl.foldl (fun m x => if keyLt m x.key then x.key else m) r.key) ++
    varintEncode (tl.foldl (fun m x => min m x.seq) r.seq) ++
    varintEncode (tl.foldl (fun m x => max m x.seq) r.seq)

/-- Modelled from the spec: the builder emits the record count, the encoded
records, and the footer. -/
def buildTable (rs : List Record) : List Nat :=
  varintEncode rs.length ++ (rs.map encodeRecord).flatten ++ tableFooter rs

/-- Modelled from the spec: the reader decodes the record count and then
that many records. -/
def readTable (bs : List Nat) : Option (List Record) :=
  match varintDecode bs with
  | none => none
  | some (n, rest) =>
    match decodeRecords n rest with
    | none => none
    | some (rs, _) => some rs

theorem decodeRecord_round (r : Record) (rest : List Nat) :
    decodeRecord (encodeRecord r ++ rest) = some (r, rest) := by
  cases hop : r.op with
  | put v =>
    simp only [decodeRecord, encodeRecord, hop, List.append_assoc, varint_round]
    rw [List.take_left' rfl, List.drop_left' rfl]
    simp only [List.length_append]
    rw [if_neg (by omega)]
    simp only [varint_round, List.cons_append, List.append_assoc, varint_round]
    rw [List.take_left' rfl, List.drop_left' rfl]
    rw [if_neg (by simp only [List.length_append]; omega)]
    cases r with
    | mk k s o => simp_all
  | del =>
    simp only [decodeRecord, encodeRecord, hop, List.append_assoc, varint_round]
    rw [List.take_left' rfl, List.drop_left' rfl]
    simp only [List.length_append]
    rw [if_neg (by omega)]
    simp only [varint_round, List.cons_append]
    cases r with
    | mk k s o => simp_all

theorem decodeRecords_round (rs : List Record) (rest : List Nat) :
    decodeRecords rs.length ((rs.map encodeRecord).flatten ++ rest) = some (rs, rest) := by
  induction rs with
  | nil => simp [decodeRecords]
  | cons r tl ih =>
    simp only [List.length_cons, List.map_cons, List.flatten_cons, List.append_assoc,
      decodeRecords, decodeRecord_round, ih]

/-- The builder's input contract: records sorted by key and, within a key,
by descending sequence number, with no duplicate `(key, seq)` pairs. -/
def BuilderInput (rs : List Record) : Prop :=
  List.Pairwise (fun a b => keyLt a.key b.key = true ∨ (a.key = b.key ∧ b.seq < a.seq)) rs

instance : DecidablePred BuilderInput := fun rs =>
  List.instDecidablePairwise rs

/-! ## The store state

Modelled from the spec: the store holds a write-ahead log (durable,
commit order), a memtable (newest record first), the SSTables in recency
order (newest first), the manifest's sequence high-water mark from the last
flush, and the global sequence counter shared by all column families. -/

/-- Modelled from the spec: one pending operation of a `WriteBatch`
(sequence numbers are assigned only at commit). -/
structure BatchOp where
  key : Key
  op : ROp
deriving DecidableEq, Repr

/-- Modelled from the spec: the engine state. -/
structure Store where
  wal : List Record
  mem : List Record
  tables : List (List Record)
  flushedSeq : Nat
  seq : Nat
deriving DecidableEq, Repr

/-- Modelled from the spec: error kinds surfaced to the caller. -/
inductive Err where
  | ioError
  | invariantViolation
deriving DecidableEq, Repr

/-- The records a read consults, in recency order: memtable first, then the
SSTables from newest to oldest. -/
def scanList (s : Store) : List Record := s.mem ++ s.tables.flatten

/-- Stamp a batch with the contiguous sequence numbers `base+1 .. base+n`,
in commit order. -/
def stampBatch : Nat → List BatchOp → List Record
  | _, [] => []
  | base, o :: rest => ⟨o.key, base + 1, o.op⟩ :: stampBatch (base + 1) rest

/-- Modelled from the spec: the state after a successful commit — the whole
batch appended to the WAL, applied to the memtable in commit order (newest
first), and the global counter advanced by the batch length. -/
def commitState (s : Store) (b : List BatchOp) : Store :=
  { s with wal := s.wal ++ stampBatch s.seq b,
           mem := (stampBatch s.seq b).reverse ++ s.mem,
           seq := s.seq + b.length }

/-- Modelled from the spec: commit writes the batch to the WAL first; if
the WAL write/fsync fails the whole batch fails with `ioError`, otherwise
the batch is applied and the assigned sequence range returned. -/
def commit (s : Store) (b : List BatchOp) (walOk : Bool) :
    Except Err (Store × (Nat × Nat)) :=
  if walOk then .ok (commitState s b, (s.seq + 1, s.seq + b.length))
  else .error .ioError

/-- Modelled from the spec: flush freezes the memtable into a new newest
SSTable, clears the flushed WAL segments, and records the sequence
high-water mark in the manifest. -/
def flushState (s : Store) : Store :=
  { s with wal := [], mem := [], tables := s.mem :: s.tables, flushedSeq := s.seq }

/-- Modelled from the spec: the read path — scan the memtable then the
descending SSTable levels for the first record of the key visible at the
reader's sequence bound. -/
def lookupRec (rs : List Record) (k : Key) (S : Nat) : Option Record :=
  rs.find? (fun r => r.key == k && decide (r.seq ≤ S))

/-- Modelled from the spec: a point read at sequence bound `S` — the first
visible record's value, or not-found on a Delete tombstone or no record. -/
def readValue (s : Store) (k : Key) (S : Nat) : Option Value :=
  match lookupRec (scanList s) k S with
  | some r =>
    match r.op with
    | .put v => some v
    | .del => none
  | none => none

/-- The records visible at sequence bound `S`. -/
def filterAtMost (S : Nat) (rs : List Record) : List Record :=
  rs.filter (fun r => decide (r.seq ≤ S))

/-- Keep the first record of each key run (the newest version after the
records are sorted by key and descending sequence number). -/
def collapseAfter (k : Key) : List Record → List Record
  | [] => []
  | r :: rest => if r.key = k then collapseAfter k rest else r :: collapseAfter r.key rest

/-- Keep the first record of each key. -/
def collapseKeys : List Record → List Record
  | [] => []
  | r :: rest => r :: collapseAfter r.key rest

/-- Merge order for iterator and compaction: by key, then by descending
sequence number. -/
def recLEb (a b : Record) : Bool :=
  keyLt a.key b.key || (a.key == b.key && decide (b.seq ≤ a.seq))

/-- Insertion into a list sorted by `recLEb`. -/
def insertRec (a : Record) : List Record → List Record
  | [] => [a]
  | b :: rest => if recLEb a b then a :: b :: rest else b :: insertRec a rest

/-- Sort records by `(key, descending seq)`. -/
def sortRecs : List Record → List Record
  | [] => []
  | a :: rest => insertRec a (sortRecs rest)

/-- Modelled from the spec: an iterator's full forward scan — a k-way merge
of the memtable and all SSTables keyed by `(key, descending seq)`, filtered
to the iterator's bound sequence number, keeping the newest version of each
key and skipping tombstones. -/
def iterEntries (s : Store) (S : Nat) : List (Key × Value) :=
  (collapseKeys (sortRecs (filterAtMost S (scanList s)))).filterMap
    (fun r => match r.op with | .put v => some (r.key, v) | .del => none)

/-- Every record of the store carries a sequence number at most the global
counter. -/
def SeqBound (s : Store) : Prop := ∀ r ∈ scanList s, r.seq ≤ s.seq

/-- The scan order agrees with recency: of two records of the same key, the
one scanned first has the strictly larger sequence number. -/
def ScanOrdered (s : Store) : Prop :=
  List.Pairwise (fun a b => a.key = b.key → b.seq < a.seq) (scanList s)

/-! ## Durability and crash recovery -/

/-- Modelled from the spec: what survives a crash — the WAL segments, the
SSTable files, and the manifest's sequence high-water mark.  The memtable is
volatile and is lost. -/
structure Durable where
  wal : List Record
  tables : List (List Record)
  flushedSeq : Nat
deriving DecidableEq, Repr

/-- A crash keeps only the durable state. -/
def crash (s : Store) : Durable := ⟨s.wal, s.tables, s.flushedSeq⟩

/-- The largest sequence number recorded in the WAL. -/
def walMaxSeq (wal : List Record) : Nat := wal.foldl (fun m r => max m r.seq) 0

/-- Modelled from the spec: restart replays the WAL into a fresh memtable
and restores the sequence counter from the manifest high-water mark and the
replayed log. -/
def recover (d : Durable) : Store :=
  { wal := d.wal, mem := d.wal.reverse, tables := d.tables,
    flushedSeq := d.flushedSeq, seq := max d.flushedSeq (walMaxSeq d.wal) }

/-- Modelled from the spec: the state of a commit interrupted mid-apply —
the WAL append of the whole batch has completed (it precedes the apply),
but only the first `k` operations have reached the memtable. -/
def midApply (s : Store) (b : List BatchOp) (k : Nat) : Store :=
  { s with wal := s.wal ++ stampBatch s.seq b,
           mem := ((stampBatch s.seq b).take k).reverse ++ s.mem }

/-- The durable-state invariant maintained between operations: the memtable
holds exactly the unflushed WAL suffix, and the counter agrees with the
manifest mark and the WAL. -/
def WFdur (s : Store) : Prop :=
  s.mem = s.wal.reverse ∧ s.seq = max s.flushedSeq (walMaxSeq s.wal)

/-! ## Compaction -/

/-- Modelled from the spec: a Delete tombstone may be dropped only at the
bottom-most level and only once it has outlived every sequence number
pinned by a live snapshot. -/
def dropTomb (pinned : List Nat) (isBottom : Bool) (r : Record) : Bool :=
  match r.op with
  | .del => isBottom && pinned.all (fun p => decide (r.seq ≤ p))
  | .put _ => false

/-- Modelled from the spec: compaction merges the input tables by
`(key, descending seq)`, keeps the highest-sequence version of each key
(highest sequence number wins), and drops tombstones that are safe to
drop. -/
def compactTables (rss : List (List Record)) (pinned : List Nat) (isBottom : Bool) :
    List Record :=
  (collapseKeys (sortRecs rss.flatten)).filter (fun r => !dropTomb pinned isBottom r)

/-- A level that compaction has already normalised: records strictly sorted
by key (so at most one version per key) and no tombstone that could still
be dropped. -/
def CompactedLevel (L : List Record) (pinned : List Nat) (isBottom : Bool) : Prop :=
  List.Pairwise (fun a b => keyLt a.key b.key = true) L ∧
  ∀ r ∈ L, dropTomb pinned isBottom r = false

/-! ## Bulk ingest -/

/-- Does the file's key range `[min, max]` overlap any live record of the
store? -/
def fileOverlaps (file : List Record) (s : Store) : Bool :=
  match file with
  | [] => false
  | f :: tl =>
    let lo := tl.foldl (fun m x => if keyLt x.key m then x.key else m) f.key
    let hi := tl.foldl (fun m x => if keyLt m x.key then x.key else m) f.key
    (scanList s).any (fun r => !keyLt r.key lo && !keyLt hi r.key)

/-- Modelled from the spec: ingest validates that the file's key range does
not overlap existing data when overlap is disallowed; on violation it fails
with `invariantViolation` and leaves the store unchanged, otherwise it
registers the file in the manifest as a table. -/
def ingestRun (s : Store) (file : List Record) (allowOverlap : Bool) :
    Store × Option Err :=
  if !allowOverlap && fileOverlaps file s then (s, some .invariantViolation)
  else ({ s with tables := s.tables ++ [file] }, none)

/-! ## Operations of the store, as a step relation -/

/-- Modelled from the spec: one operation of the store — a commit (which
may fail at the WAL), a flush, a compaction of a contiguous run of tables,
or an ingest. -/
inductive Step : Store → Store → Prop where
  | commitOk (s : Store) (b : List BatchOp) : Step s (commitState s b)
  | commitFail (s : Store) (b : List BatchOp) : Step s s
  | flush (s : Store) : Step s (flushState s)
  | compaction (s : Store) (pre mid post : List (List Record))
      (pinned : List Nat) (isBottom : Bool) (h : s.tables = pre ++ mid ++ post) :
      Step s { s with tables := pre ++ [compactTables mid pinned isBottom] ++ post }
  | ingest (s : Store) (file : List Record) (allow : Bool) :
      Step s (ingestRun s file allow).1

/-- A foreground write-path action: a commit or a flush. -/
inductive FgAct where
  | commitB (b : List BatchOp)
  | flushA
deriving Repr

/-- Run a sequence of commits and flushes. -/
def applyActs (s : Store) : List FgAct → Store
  | [] => s
  | .commitB b :: rest => applyActs (commitState s b) rest
  | .flushA :: rest => applyActs (flushState s) rest

/-! ## The Python package module

Translated from `python/rocksdict/__init__.py`:

```
from .rocksdict import *
__doc__ = rocksdict.__doc__
__all__ = ["Rdict", ...]
```

A module namespace maps attribute names to Python objects; the native
extension module is an arbitrary such namespace. -/

/-- A Python object, as far as the module-level code distinguishes them. -/
inductive PyObj where
  | extern0 (id : Nat)
  | pyStr (s : String)
  | pyNone
  | nameList (names : List String)
deriving DecidableEq, Repr

/-- A module namespace. -/
def PyNS : Type := String → Option PyObj

/-- The empty namespace a module starts from. -/
def emptyNS : PyNS := fun _ => none

/-- Attribute assignment. -/
def setattrF (m : PyNS) (n : String) (v : PyObj) : PyNS :=
  fun x => if x = n then some v else m x

/-- A public attribute name: one not starting with an underscore. -/
def isPublicName (n : String) : Bool :=
  match n.data with
  | [] => true
  | c :: _ => c != '_'

/-- `from <mod> import *` for a module with no `__all__` of its own: every
name not starting with an underscore is bound to the module's object of
that name; other names are untouched. -/
def starImportF (native : PyNS) (base : PyNS) : PyNS :=
  fun x => if isPublicName x && (native x).isSome then native x else base x

/-- A module's `__doc__` attribute (`None` when absent). -/
def moduleDoc (native : PyNS) : PyObj :=
  match native ("__doc__") with
  | some v => v
  | none => PyObj.pyNone

/-- The `__all__` list of `python/rocksdict/__init__.py`, verbatim. -/
def dunderAll : List String :=
  ["Rdict", "WriteBatch", "SstFileWriter", "AccessType", "WriteOptions",
   "Snapshot", "RdictIter", "Options", "ReadOptions", "ColumnFamily",
   "IngestExternalFileOptions", "DBPath", "MemtableFactory",
   "BlockBasedOptions", "PlainTableFactoryOptions", "CuckooTableOptions",
   "UniversalCompactOptions", "UniversalCompactionStopStyle",
   "SliceTransform", "DataBlockIndexType", "BlockBasedIndexType", "Cache",
   "DBCompactionStyle", "DBCompressionType", "DBRecoveryMode", "Env",
   "FifoCompactOptions"]

/-- The namespace `python/rocksdict/__init__.py` builds, statement by
statement: star-import from the native extension, then the `__doc__`
assignment, then the `__all__` assignment. -/
def initPackage (native : PyNS) : PyNS :=
  setattrF (setattrF (starImportF native emptyNS) "__doc__" (moduleDoc native))
    "__all__" (PyObj.nameList dunderAll)

/-! ## Decidability of the invariants (used to evaluate concrete states) -/

instance (s : Store) : Decidable (SeqBound s) :=
  List.decidableBAll _ _

instance (s : Store) : Decidable (ScanOrdered s) :=
  List.instDecidablePairwise _

instance (s : Store) : Decidable (WFdur s) :=
  instDecidableAnd

instance (L : List Record) (pinned : List Nat) (isBottom : Bool) :
    Decidable (CompactedLevel L pinned isBottom) :=
  instDecidableAnd

/-! ## Supporting lemmas -/

theorem stampBatch_length (base : Nat) (b : List BatchOp) :
    (stampBatch base b).length = b.length := by
  induction b generalizing base with
  | nil => rfl
  | cons o rest ih => simp [stampBatch, ih]

theorem stampBatch_seq_mem (base : Nat) (b : List BatchOp) :
    ∀ r ∈ stampBatch base b, base < r.seq ∧ r.seq ≤ base + b.length := by
  induction b generalizing base with
  | nil => intro r hr; simp [stampBatch] at hr
  | cons o rest ih =>
    intro r hr
    simp only [stampBatch, List.mem_cons] at hr
    rcases hr with h | h
    · subst h
      refine ⟨Nat.lt_succ_self base, ?_⟩
      show base + 1 ≤ base + (rest.length + 1)
      omega
    · have := ih (base + 1) r h
      simp only [List.length_cons]
      omega

theorem stampBatch_map_seq (base : Nat) (b : List BatchOp) :
    (stampBatch base b).map Record.seq = List.range' (base + 1) b.length := by
  induction b generalizing base with
  | nil => rfl
  | cons o rest ih =>
    simp [stampBatch, List.range'_succ, ih]

theorem scanList_commit (s : Store) (b : List BatchOp) :
    scanList (commitState s b) = (stampBatch s.seq b).reverse ++ scanList s := by
  simp [scanList, commitState]

theorem scanList_flush (s : Store) : scanList (flushState s) = scanList s := by
  simp [scanList, flushState]

theorem seqBound_commit (s : Store) (b : List BatchOp) (h : SeqBound s) :
    SeqBound (commitState s b) := by
  intro r hr
  rw [scanList_commit] at hr
  rcases List.mem_append.mp hr with h1 | h1
  · have := stampBatch_seq_mem s.seq b r (List.mem_reverse.mp h1)
    simp only [commitState, stampBatch_length]
    omega
  · have := h r h1
    simp only [commitState]
    omega

theorem seqBound_flush (s : Store) (h : SeqBound s) : SeqBound (flushState s) := by
  intro r hr
  rw [scanList_flush] at hr
  exact h r hr

theorem filterAtMost_commit (s : Store) (b : List BatchOp) (S : Nat) (hS : S ≤ s.seq) :
    filterAtMost S (scanList (commitState s b)) = filterAtMost S (scanList s) := by
  rw [scanList_commit]
  unfold filterAtMost
  rw [List.filter_append]
  have hnil : ((stampBatch s.seq b).reverse.filter (fun r => decide (r.seq ≤ S))) = [] := by
    rw [List.filter_eq_nil_iff]
    intro r hr
    have := stampBatch_seq_mem s.seq b r (List.mem_reverse.mp hr)
    simp only [decide_eq_true_eq]
    omega
  rw [hnil, List.nil_append]

theorem filterAtMost_applyActs (acts : List FgAct) (s : Store) (S : Nat)
    (hS : S ≤ s.seq) (hB : SeqBound s) :
    filterAtMost S (scanList (applyActs s acts)) = filterAtMost S (scanList s) := by
  induction acts generalizing s with
  | nil => rfl
  | cons a rest ih =>
    cases a with
    | commitB b =>
      have h1 : S ≤ (commitState s b).seq := by simp only [commitState]; omega
      rw [applyActs, ih (commitState s b) h1 (seqBound_commit s b hB),
        filterAtMost_commit s b S hS]
    | flushA =>
      have h1 : S ≤ (flushState s).seq := hS
      rw [applyActs, ih (flushState s) h1 (seqBound_flush s hB)]
      unfold filterAtMost
      rw [scanList_flush]

theorem lookupRec_filterAtMost (rs : List Record) (k : Key) (S : Nat) :
    lookupRec rs k S = lookupRec (filterAtMost S rs) k S := by
  induction rs with
  | nil => rfl
  | cons r tl ih =>
    unfold lookupRec filterAtMost at *
    by_cases h : r.seq ≤ S
    · rw [List.filter_cons, if_pos (by simpa using h)]
      by_cases hk : (r.key == k && decide (r.seq ≤ S)) = true
      · rw [List.find?_cons_of_pos tl hk,
          List.find?_cons_of_pos (tl.filter (fun r => decide (r.seq ≤ S))) hk]
      · rw [List.find?_cons_of_neg tl hk,
          List.find?_cons_of_neg (tl.filter (fun r => decide (r.seq ≤ S))) hk]
        exact ih
    · rw [List.filter_cons, if_neg (by simpa using h),
        List.find?_cons_of_neg tl (by simp [h])]
      exact ih

/-- The spec's characterisation of the visible record: a record of the key,
within the bound, of maximal sequence number among such records. -/
def IsMaxVisible (rs : List Record) (k : Key) (S : Nat) (r : Record) : Prop :=
  r ∈ rs ∧ r.key = k ∧ r.seq ≤ S ∧
    ∀ r' ∈ rs, r'.key = k → r'.seq ≤ S → r'.seq ≤ r.seq

theorem lookupRec_isMaxVisible (rs : List Record) (k : Key) (S : Nat)
    (h : List.Pairwise (fun a b => a.key = b.key → b.seq < a.seq) rs) :
    ∀ r, lookupRec rs k S = some r → IsMaxVisible rs k S r := by
  induction rs with
  | nil => intro r hr; simp [lookupRec] at hr
  | cons a tl ih =>
    intro r hr
    unfold lookupRec at hr
    rcases List.pairwise_cons.mp h with ⟨ha, htl⟩
    by_cases hp : (a.key == k && decide (a.seq ≤ S)) = true
    · rw [List.find?_cons_of_pos tl hp] at hr
      have har : a = r := by injection hr
      subst har
      have hk : a.key = k := by
        have := (Bool.and_eq_true_iff.mp hp).1
        simpa using this
      have hs : a.seq ≤ S := by
        have := (Bool.and_eq_true_iff.mp hp).2
        simpa using this
      refine ⟨List.mem_cons_self a tl, hk, hs, ?_⟩
      intro r' hr' hk' hs'
      rcases List.mem_cons.mp hr' with h1 | h1
      · subst h1; exact Nat.le_refl _
      · have := ha r' h1 (by rw [hk, hk'])
        omega
    · rw [List.find?_cons_of_neg tl hp] at hr
      obtain ⟨hm, hk, hs, hmax⟩ := ih htl r hr
      refine ⟨List.mem_cons_of_mem a hm, hk, hs, ?_⟩
      intro r' hr' hk' hs'
      rcases List.mem_cons.mp hr' with h1 | h1
      · exfalso
        apply hp
        subst h1
        simp [hk', hs']
      · exact hmax r' h1 hk' hs'

theorem lookupRec_none_invisible (rs : List Record) (k : Key) (S : Nat)
    (hr : lookupRec rs k S = none) :
    ∀ r ∈ rs, r.key = k → S < r.seq := by
  intro r hm hk
  have hnp := List.find?_eq_none.mp hr r hm
  by_contra hlt
  push_neg at hlt
  apply hnp
  simp [hk, hlt]

/-! ## The claims -/

/-- C1: Snapshot isolation — for every sequence of commits (and flushes,
which move memtable contents into SSTables the reader later touches), a
point read or a full iterator scan bound to a snapshot sequence number
taken before those commits observes exactly what it observed before them:
no key/value written by a later commit is visible, even after it lands in
an SSTable. -/
theorem snapshot_isolation (s : Store) (acts : List FgAct) (k : Key) (S : Nat)
    (hS : S ≤ s.seq) (hB : SeqBound s) :
    readValue (applyActs s acts) k S = readValue s k S ∧
    iterEntries (applyActs s acts) S = iterEntries s S := by
  have hf := filterAtMost_applyActs acts s S hS hB
  constructor
  · unfold readValue
    rw [lookupRec_filterAtMost (scanList (applyActs s acts)) k S, hf,
      ← lookupRec_filterAtMost (scanList s) k S]
  · unfold iterEntries
    rw [hf]

theorem snapshot_isolation_witness :
    readValue
        (applyActs (Store.mk [] [⟨[1], 2, ROp.put [2]⟩, ⟨[1], 1, ROp.put [1]⟩] [] 0 2)
          [FgAct.commitB [⟨[1], ROp.put [3]⟩], FgAct.flushA]) [1] 2 =
      readValue (Store.mk [] [⟨[1], 2, ROp.put [2]⟩, ⟨[1], 1, ROp.put [1]⟩] [] 0 2) [1] 2 ∧
    iterEntries
        (applyActs (Store.mk [] [⟨[1], 2, ROp.put [2]⟩, ⟨[1], 1, ROp.put [1]⟩] [] 0 2)
          [FgAct.commitB [⟨[1], ROp.put [3]⟩], FgAct.flushA]) 2 =
      iterEntries (Store.mk [] [⟨[1], 2, ROp.put [2]⟩, ⟨[1], 1, ROp.put [1]⟩] [] 0 2) 2 :=
  snapshot_isolation (Store.mk [] [⟨[1], 2, ROp.put [2]⟩, ⟨[1], 1, ROp.put [1]⟩] [] 0 2)
    [FgAct.commitB [⟨[1], ROp.put [3]⟩], FgAct.flushA] [1] 2
    (by decide) (by decide)

/-- C2: Read visibility — under the recency-ordering invariant of the scan
list, a read at bound `S` returns exactly the record of the key with the
highest sequence number not exceeding `S` (none when every version exceeds
`S`); when that record is a Delete tombstone the read returns not-found;
and a read at a snapshot taken before a delete commits still returns the
prior value. -/
theorem read_visibility (s : Store) (k : Key) (S : Nat) (hO : ScanOrdered s) :
    (∀ r, lookupRec (scanList s) k S = some r → IsMaxVisible (scanList s) k S r) ∧
    (lookupRec (scanList s) k S = none → ∀ r ∈ scanList s, r.key = k → S < r.seq) ∧
    (∀ r, lookupRec (scanList s) k S = some r → r.op = ROp.del →
      readValue s k S = none) ∧
    (readValue (commitState s [⟨k, ROp.del⟩]) k s.seq = readValue s k s.seq) := by
  refine ⟨lookupRec_isMaxVisible (scanList s) k S hO,
    lookupRec_none_invisible (scanList s) k S, ?_, ?_⟩
  · intro r hr hdel
    unfold readValue
    rw [hr]
    simp [hdel]
  · unfold readValue
    rw [lookupRec_filterAtMost (scanList (commitState s [⟨k, ROp.del⟩])) k s.seq,
      filterAtMost_commit s [⟨k, ROp.del⟩] s.seq (Nat.le_refl _),
      ← lookupRec_filterAtMost (scanList s) k s.seq]

theorem read_visibility_witness :
    readValue
        (commitState (Store.mk [] [⟨[2], 1, ROp.put [7]⟩] [] 0 1) [⟨[2], ROp.del⟩])
        [2] (Store.mk [] [⟨[2], 1, ROp.put [7]⟩] [] 0 1).seq =
      readValue (Store.mk [] [⟨[2], 1, ROp.put [7]⟩] [] 0 1) [2]
        (Store.mk [] [⟨[2], 1, ROp.put [7]⟩] [] 0 1).seq :=
  (read_visibility (Store.mk [] [⟨[2], 1, ROp.put [7]⟩] [] 0 1) [2] 1 (by decide)).2.2.2

theorem foldl_max_seq (l : List Record) (a : Nat) :
    l.foldl (fun m r => max m r.seq) a = max a (walMaxSeq l) := by
  induction l generalizing a with
  | nil => simp [walMaxSeq]
  | cons r tl ih =>
    unfold walMaxSeq
    simp only [List.foldl_cons]
    rw [ih (max a r.seq), ih (max 0 r.seq)]
    omega

theorem walMaxSeq_append (l1 l2 : List Record) :
    walMaxSeq (l1 ++ l2) = max (walMaxSeq l1) (walMaxSeq l2) := by
  unfold walMaxSeq
  rw [List.foldl_append]
  exact foldl_max_seq l2 _

theorem walMaxSeq_stampBatch (base : Nat) (b : List BatchOp) :
    walMaxSeq (stampBatch base b) =
      if b.length = 0 then 0 else base + b.length := by
  induction b generalizing base with
  | nil => rfl
  | cons o rest ih =>
    show walMaxSeq (⟨o.key, base + 1, o.op⟩ :: stampBatch (base + 1) rest) = _
    unfold walMaxSeq
    simp only [List.foldl_cons]
    rw [foldl_max_seq]
    show max (max 0 (base + 1)) (walMaxSeq (stampBatch (base + 1) rest)) = _
    rw [ih (base + 1)]
    simp only [List.length_cons]
    by_cases h : rest.length = 0
    · simp [h]
    · simp [h]
      omega

/-- C3: Write-batch atomicity — commit stamps a batch of `N` operations
with the contiguous sequence block `seq+1 .. seq+N`; a failed WAL
write/fsync fails the whole batch with `ioError`; a crash before the WAL
append recovers to the pre-commit state (none of the batch visible), and a
crash after the WAL append but with only `k ≤ N` operations applied to the
memtable recovers to the fully committed state (all `N` visible). -/
theorem commit_atomicity (s : Store) (b : List BatchOp) (k : Nat)
    (hW : WFdur s) (hk : k ≤ b.length) :
    ((stampBatch s.seq b).map Record.seq = List.range' (s.seq + 1) b.length) ∧
    (commit s b false = .error .ioError) ∧
    (recover (crash s) = s) ∧
    (recover (crash (midApply s b k)) = commitState s b) := by
  obtain ⟨hmem, hseq⟩ := hW
  refine ⟨stampBatch_map_seq s.seq b, rfl, ?_, ?_⟩
  · cases s with
    | mk wal mem tables flushedSeq seq =>
      simp only at hmem hseq
      unfold recover crash
      simp only [Store.mk.injEq, true_and, and_true]
      exact ⟨hmem.symm, hseq.symm⟩
  · cases s with
    | mk wal mem tables flushedSeq seq =>
      simp only at hmem hseq
      unfold midApply crash recover commitState
      simp only [List.reverse_append, walMaxSeq_append, walMaxSeq_stampBatch,
        stampBatch_length, hmem, Store.mk.injEq]
      by_cases hb : b.length = 0 <;> simp [hb] <;> omega

theorem commit_atomicity_witness :
    ((stampBatch (Store.mk [] [] [] 0 0).seq [⟨[1], ROp.put [4]⟩, ⟨[2], ROp.del⟩]).map
        Record.seq =
      List.range' ((Store.mk [] [] [] 0 0).seq + 1)
        ([⟨[1], ROp.put [4]⟩, ⟨[2], ROp.del⟩] : List BatchOp).length) ∧
    (commit (Store.mk [] [] [] 0 0) [⟨[1], ROp.put [4]⟩, ⟨[2], ROp.del⟩] false =
      .error .ioError) ∧
    (recover (crash (Store.mk [] [] [] 0 0)) = Store.mk [] [] [] 0 0) ∧
    (recover (crash (midApply (Store.mk [] [] [] 0 0)
        [⟨[1], ROp.put [4]⟩, ⟨[2], ROp.del⟩] 1)) =
      commitState (Store.mk [] [] [] 0 0) [⟨[1], ROp.put [4]⟩, ⟨[2], ROp.del⟩]) :=
  commit_atomicity (Store.mk [] [] [] 0 0) [⟨[1], ROp.put [4]⟩, ⟨[2], ROp.del⟩] 1
    (by decide) (by decide)

/-- C4: SSTable round-trip — building a table file from a sorted,
deduplicated record sequence and reading it back through the table reader
returns exactly the input records, Delete tombstones included. -/
theorem sstable_round_trip (rs : List Record) (h : BuilderInput rs) :
    readTable (buildTable rs) = some rs := by
  simp only [readTable, buildTable, List.append_assoc, varint_round, decodeRecords_round]

theorem sstable_round_trip_witness :
    readTable (buildTable [⟨[1], 5, ROp.put [9, 9]⟩, ⟨[2], 4, ROp.del⟩, ⟨[2], 3, ROp.put [7]⟩]) =
      some [⟨[1], 5, ROp.put [9, 9]⟩, ⟨[2], 4, ROp.del⟩, ⟨[2], 3, ROp.put [7]⟩] :=
  sstable_round_trip [⟨[1], 5, ROp.put [9, 9]⟩, ⟨[2], 4, ROp.del⟩, ⟨[2], 3, ROp.put [7]⟩]
    (by decide)

theorem keyLt_ne {a b : Key} (h : keyLt a b = true) : a ≠ b := by
  intro he
  subst he
  rw [keyLt_irrefl] at h
  exact Bool.false_ne_true h

theorem sortRecs_of_sorted (l : List Record)
    (h : List.Pairwise (fun a b => recLEb a b = true) l) : sortRecs l = l := by
  induction l with
  | nil => rfl
  | cons a rest ih =>
    rcases List.pairwise_cons.mp h with ⟨ha, hrest⟩
    rw [sortRecs, ih hrest]
    cases rest with
    | nil => rfl
    | cons b tl =>
      rw [insertRec, if_pos (ha b (List.mem_cons_self b tl))]

theorem collapseAfter_of_distinct (l : List Record) (k : Key)
    (hk : ∀ x ∈ l, x.key ≠ k)
    (h : List.Pairwise (fun a b => a.key ≠ b.key) l) : collapseAfter k l = l := by
  induction l generalizing k with
  | nil => rfl
  | cons r rest ih =>
    rcases List.pairwise_cons.mp h with ⟨hr, hrest⟩
    rw [collapseAfter, if_neg (hk r (List.mem_cons_self r rest)),
      ih r.key (fun x hx => (hr x hx).symm) hrest]

theorem collapseKeys_of_distinct (l : List Record)
    (h : List.Pairwise (fun a b => a.key ≠ b.key) l) : collapseKeys l = l := by
  cases l with
  | nil => rfl
  | cons r rest =>
    rcases List.pairwise_cons.mp h with ⟨hr, hrest⟩
    rw [collapseKeys,
      collapseAfter_of_distinct rest r.key (fun x hx => (hr x hx).symm) hrest]

/-- C5: Compaction idempotence — compacting a level that is already
compacted (strictly key-sorted, at most one version per key, no tombstone
still eligible for dropping) reproduces the level exactly, so the set of
live keys and values is unchanged. -/
theorem compaction_idempotent (L : List Record) (pinned : List Nat)
    (isBottom : Bool) (h : CompactedLevel L pinned isBottom) :
    compactTables [L] pinned isBottom = L := by
  obtain ⟨hsort, htomb⟩ := h
  unfold compactTables
  have hflat : ([L] : List (List Record)).flatten = L := by simp
  rw [hflat]
  rw [sortRecs_of_sorted L (hsort.imp (fun hab => by
    unfold recLEb
    rw [hab]
    rfl))]
  rw [collapseKeys_of_distinct L (hsort.imp (fun hab => keyLt_ne hab))]
  rw [List.filter_eq_self]
  intro r hr
  rw [htomb r hr]
  rfl

theorem compaction_idempotent_witness :
    compactTables [[⟨[1], 3, ROp.put [6]⟩, ⟨[2], 9, ROp.del⟩, ⟨[3], 2, ROp.put [8]⟩]]
        [5] true =
      [⟨[1], 3, ROp.put [6]⟩, ⟨[2], 9, ROp.del⟩, ⟨[3], 2, ROp.put [8]⟩] :=
  compaction_idempotent
    [⟨[1], 3, ROp.put [6]⟩, ⟨[2], 9, ROp.del⟩, ⟨[3], 2, ROp.put [8]⟩] [5] true
    (by decide)

/-- C6: Ingest atomicity — ingesting an external table whose key range
overlaps live data while overlap is disallowed fails with
`invariantViolation` and leaves the store unchanged: every read of every
key at every bound returns the same result as before the failed ingest. -/
theorem ingest_overlap_rejected (s : Store) (file : List Record)
    (h : fileOverlaps file s = true) :
    (ingestRun s file false).2 = some Err.invariantViolation ∧
    (ingestRun s file false).1 = s ∧
    (∀ k S, readValue (ingestRun s file false).1 k S = readValue s k S) := by
  unfold ingestRun
  rw [h]
  exact ⟨rfl, rfl, fun k S => rfl⟩

theorem ingest_overlap_rejected_witness :
    (ingestRun (Store.mk [] [⟨[3], 1, ROp.put [7]⟩] [] 0 1)
        [⟨[2], 0, ROp.put [1]⟩, ⟨[4], 0, ROp.put [2]⟩] false).2 =
      some Err.invariantViolation ∧
    (ingestRun (Store.mk [] [⟨[3], 1, ROp.put [7]⟩] [] 0 1)
        [⟨[2], 0, ROp.put [1]⟩, ⟨[4], 0, ROp.put [2]⟩] false).1 =
      Store.mk [] [⟨[3], 1, ROp.put [7]⟩] [] 0 1 ∧
    (∀ k S, readValue (ingestRun (Store.mk [] [⟨[3], 1, ROp.put [7]⟩] [] 0 1)
        [⟨[2], 0, ROp.put [1]⟩, ⟨[4], 0, ROp.put [2]⟩] false).1 k S =
      readValue (Store.mk [] [⟨[3], 1, ROp.put [7]⟩] [] 0 1) k S) :=
  ingest_overlap_rejected (Store.mk [] [⟨[3], 1, ROp.put [7]⟩] [] 0 1)
    [⟨[2], 0, ROp.put [1]⟩, ⟨[4], 0, ROp.put [2]⟩] (by decide)

/-- C7: Sequence-counter monotonicity — every operation of the store
(commit, failed commit, flush, compaction, ingest) leaves the global
sequence counter no smaller, and whenever the counter grows the operation
was a successful commit whose returned sequence range reports exactly the
increment. -/
theorem seq_monotone (s s' : Store) (h : Step s s') :
    s.seq ≤ s'.seq ∧
    (s.seq < s'.seq → ∃ b : List BatchOp, s' = commitState s b ∧
      commit s b true = .ok (s', (s.seq + 1, s'.seq))) := by
  cases h with
  | commitOk b =>
    constructor
    · show s.seq ≤ s.seq + b.length
      omega
    · intro _
      exact ⟨b, rfl, rfl⟩
  | commitFail b => exact ⟨Nat.le_refl _, fun hlt => absurd hlt (Nat.lt_irrefl _)⟩
  | flush => exact ⟨Nat.le_refl _, fun hlt => absurd hlt (Nat.lt_irrefl _)⟩
  | compaction pre mid post pinned isBottom hts =>
    exact ⟨Nat.le_refl _, fun hlt => absurd hlt (Nat.lt_irrefl _)⟩
  | ingest file allow =>
    constructor
    · unfold ingestRun
      by_cases ho : (!allow && fileOverlaps file s) = true
      · rw [if_pos ho]
      · rw [if_neg ho]
    · intro hlt
      exfalso
      unfold ingestRun at hlt
      by_cases ho : (!allow && fileOverlaps file s) = true
      · rw [if_pos ho] at hlt
        exact Nat.lt_irrefl _ hlt
      · rw [if_neg ho] at hlt
        exact Nat.lt_irrefl _ hlt

theorem seq_monotone_witness :
    (Store.mk [] [] [] 0 0).seq ≤ (flushState (Store.mk [] [] [] 0 0)).seq ∧
    ((Store.mk [] [] [] 0 0).seq < (flushState (Store.mk [] [] [] 0 0)).seq →
      ∃ b : List BatchOp,
        flushState (Store.mk [] [] [] 0 0) = commitState (Store.mk [] [] [] 0 0) b ∧
        commit (Store.mk [] [] [] 0 0) b true =
          .ok (flushState (Store.mk [] [] [] 0 0),
            ((Store.mk [] [] [] 0 0).seq + 1, (flushState (Store.mk [] [] [] 0 0)).seq))) :=
  seq_monotone (Store.mk [] [] [] 0 0) (flushState (Store.mk [] [] [] 0 0))
    (Step.flush (Store.mk [] [] [] 0 0))

/-- C8: Deleting an absent key succeeds — committing a single-delete batch
for a key never written returns success with its sequence range, and a
subsequent read of the key at the new current sequence returns not-found. -/
theorem delete_absent_key (s : Store) (K : Key)
    (hA : ∀ r ∈ scanList s, r.key ≠ K) :
    commit s [⟨K, ROp.del⟩] true =
      .ok (commitState s [⟨K, ROp.del⟩], (s.seq + 1, s.seq + 1)) ∧
    readValue (commitState s [⟨K, ROp.del⟩]) K
      (commitState s [⟨K, ROp.del⟩]).seq = none := by
  constructor
  · rfl
  · unfold readValue
    rw [scanList_commit]
    show (match lookupRec ([⟨K, s.seq + 1, ROp.del⟩].reverse ++ scanList s) K
        (s.seq + 1) with
      | some r =>
        match r.op with
        | ROp.put v => some v
        | ROp.del => none
      | none => none) = none
    unfold lookupRec
    rw [List.reverse_singleton, List.singleton_append,
      List.find?_cons_of_pos (scanList s) (by simp)]

theorem delete_absent_key_witness :
    commit (Store.mk [] [⟨[1], 1, ROp.put [7]⟩] [] 0 1) [⟨[2], ROp.del⟩] true =
      .ok (commitState (Store.mk [] [⟨[1], 1, ROp.put [7]⟩] [] 0 1) [⟨[2], ROp.del⟩],
        ((Store.mk [] [⟨[1], 1, ROp.put [7]⟩] [] 0 1).seq + 1,
         (Store.mk [] [⟨[1], 1, ROp.put [7]⟩] [] 0 1).seq + 1)) ∧
    readValue (commitState (Store.mk [] [⟨[1], 1, ROp.put [7]⟩] [] 0 1) [⟨[2], ROp.del⟩])
      [2] (commitState (Store.mk [] [⟨[1], 1, ROp.put [7]⟩] [] 0 1) [⟨[2], ROp.del⟩]).seq =
      none :=
  delete_absent_key (Store.mk [] [⟨[1], 1, ROp.put [7]⟩] [] 0 1) [2] (by decide)

/-- C9: Transparent re-export — for every native extension namespace, the
package module built by `__init__.py` binds each name of `__all__` to
exactly the native module's object of that name; every public name (not
starting with an underscore) resolves through the package exactly as on
the native module; and apart from its `__doc__` and `__all__` statements
the package namespace is exactly the star-imported native surface, so it
defines nothing of its own. -/
theorem reexport_transparent (native : PyNS) :
    (∀ n ∈ dunderAll, initPackage native n = native n) ∧
    (∀ n : String, isPublicName n = true → initPackage native n = native n) ∧
    (∀ n : String, n ≠ ("__doc__" : String) → n ≠ ("__all__" : String) →
      initPackage native n = starImportF native emptyNS n) := by
  have hpub : ∀ n : String, isPublicName n = true → initPackage native n = native n := by
    intro n hn
    have hd : n ≠ ("__doc__" : String) := by
      intro he; rw [he] at hn; exact absurd hn (by decide)
    have ha : n ≠ ("__all__" : String) := by
      intro he; rw [he] at hn; exact absurd hn (by decide)
    unfold initPackage setattrF starImportF emptyNS
    rw [if_neg ha, if_neg hd]
    cases hv : native n with
    | some v => simp [hn, hv]
    | none => simp [hn, hv]
  refine ⟨?_, hpub, ?_⟩
  · intro n hm
    exact hpub n (by revert n; decide)
  · intro n hd ha
    unfold initPackage setattrF
    rw [if_neg ha, if_neg hd]

theorem reexport_transparent_witness :
    initPackage
        (fun x => if x = ("Rdict" : String) then some (PyObj.extern0 1)
          else if x = ("__doc__" : String) then some (PyObj.pyStr ("native docs"))
          else none) ("Rdict") =
      (fun x => if x = ("Rdict" : String) then some (PyObj.extern0 1)
        else if x = ("__doc__" : String) then some (PyObj.pyStr ("native docs"))
        else none) ("Rdict") :=
  (reexport_transparent
      (fun x => if x = ("Rdict" : String) then some (PyObj.extern0 1)
        else if x = ("__doc__" : String) then some (PyObj.pyStr ("native docs"))
        else none)).1 ("Rdict") (by decide)

/-- C10: Doc forwarding — the package's `__doc__` attribute is exactly the
native extension module's `__doc__`, and a `__doc__` assignment changes no
attribute other than `__doc__` in whatever namespace it is applied to. -/
theorem doc_forwarding (native : PyNS) :
    initPackage native ("__doc__") = some (moduleDoc native) ∧
    (∀ m : PyNS, ∀ v : PyObj, ∀ n : String, n ≠ ("__doc__" : String) →
      setattrF m ("__doc__") v n = m n) := by
  constructor
  · unfold initPackage setattrF
    rw [if_neg (by decide : ¬ (("__doc__" : String) = ("__all__" : String))),
      if_pos rfl]
  · intro m v n hn
    unfold setattrF
    rw [if_neg hn]

theorem doc_forwarding_witness :
    initPackage
        (fun x => if x = ("__doc__" : String) then some (PyObj.pyStr ("native docs"))
          else none) ("__doc__") =
      some (moduleDoc
        (fun x => if x = ("__doc__" : String) then some (PyObj.pyStr ("native docs"))
          else none)) ∧
    setattrF
        (fun x => if x = ("__doc__" : String) then some (PyObj.pyStr ("native docs"))
          else none) ("__doc__") PyObj.pyNone ("Rdict") =
      (fun x => if x = ("__doc__" : String) then some (PyObj.pyStr ("native docs"))
        else none) ("Rdict") :=
  ⟨(doc_forwarding
      (fun x => if x = ("__doc__" : String) then some (PyObj.pyStr ("native docs"))
        else none)).1,
   (doc_forwarding
      (fun x => if x = ("__doc__" : String) then some (PyObj.pyStr ("native docs"))
        else none)).2
     (fun x => if x = ("__doc__" : String) then some (PyObj.pyStr ("native docs"))
       else none) PyObj.pyNone ("Rdict") (by decide)⟩
